import Mathlib

/-!
Verification of the 2D truss direct-stiffness solver (`MSA.py`, class `MSA_truss`).

The source operates on numpy float arrays.  The embedding works over an
arbitrary `Field R` together with an explicit square-root function
`sqrt : R → R` standing for the square root inside `np.linalg.norm`
(so `np.linalg.norm([nx, ny])` becomes `sqrt (nx ^ 2 + ny ^ 2)`); theorems
about concrete real-number behaviour instantiate `R := ℝ`, `sqrt := Real.sqrt`.
Arithmetic is exact (idealised floats).  A second, refined model
(`Ke_trussF` below) additionally tracks IEEE non-finite values for the
zero-length-element analysis.

The mixed numeric/`'unk'` numpy arrays `u` and `P` are embedded as
`Fin (2 * nN) → Option R`: `some x` is a numeric entry, `none` is the
string sentinel `'unk'`.  `astype(np.float32)` applied to an `'unk'` entry
raises a `ValueError` in the source; `np.linalg.inv` applied to an exactly
singular matrix raises `numpy.linalg.LinAlgError`.  Both are modelled by
the error type `PyError`.

The source stores the node-index and DOF-index matrices with dtype
`np.int8` (lines 66, 72-73).  The DOF store is modelled faithfully:
`toInt8` / `ind_stored` give the truncated values (lines 89-94), and the
assembly's scatter positions (`dof`, line 136) resolve the possibly
negative stored values with numpy's index semantics (`npIndex`), so the
model wraps at node 64 exactly as the program does (claims C3 and C9).
One idealisation remains: the node indices themselves (`self.ien`, also
int8, used on lines 93-94 and 98-99) are kept exact, which is the
identity for node indices ≤ 127; `ien_stored` records the truncation
beyond that bound.
-/

namespace MSA

/-- The input data held by the `MSA_truss` class (`__init__`, lines 64-73):
node coordinates, element-node indices `ien`, per-element properties
`(E, A)`, and the boundary-condition vectors `u` and `P` whose entries are
either numeric (`some`) or the `'unk'` sentinel (`none`).  Node indices in
`ien` are `Fin nN` (numpy would fault on out-of-range indices). -/
structure MSA_truss (nN nE : ℕ) (R : Type) where
  coords : Fin nN → R × R
  ien : Fin nE → Fin nN × Fin nN
  props : Fin nE → R × R
  u : Fin (2 * nN) → Option R
  P : Fin (2 * nN) → Option R

variable {R : Type} [Field R] {nN nE : ℕ}

/-- Horizontal span `nx` of element `e` (line 98). -/
def elemNx (M : MSA_truss nN nE R) (e : Fin nE) : R :=
  (M.coords (M.ien e).2).1 - (M.coords (M.ien e).1).1

/-- Vertical span `ny` of element `e` (line 99). -/
def elemNy (M : MSA_truss nN nE R) (e : Fin nE) : R :=
  (M.coords (M.ien e).2).2 - (M.coords (M.ien e).1).2

/-- Element length `L = np.linalg.norm([nx, ny])` (line 101). -/
def elemL (sqrt : R → R) (M : MSA_truss nN nE R) (e : Fin nE) : R :=
  sqrt (elemNx M e ^ 2 + elemNy M e ^ 2)

/-! ### int8 index-storage model (lines 66, 72-73, 89-94)

Lines 66, 72-73 store `ien`, `ind` and `ied` with dtype `np.int8`; the DOF
computation `ind[i, 0] = i*2`, `ind[i, 1] = i*2 + 1` (lines 89-90)
therefore truncates to a signed 8-bit value, and line 136 indexes `Kg`
with the truncated values. -/

/-- Truncation of an integer into a signed 8-bit store (numpy `int8`):
wrap modulo `2^8` into `[-128, 127]`. -/
def toInt8 (z : ℤ) : ℤ := (z + 128) % 256 - 128

/-- The pair of DOF indices stored for node `i` (lines 89-90, int8). -/
def ind_stored (i : ℕ) : ℤ × ℤ := (toInt8 (2 * i), toInt8 (2 * i + 1))

/-- A node index as stored by `ien.astype(np.int8)` (line 66). -/
def ien_stored (j : ℕ) : ℤ := toInt8 j

/-- numpy indexing of an axis of length `m` with a signed index `z`:
a negative `z` counts from the end (`m + z`), i.e. the index used is
`z mod m`; outside `[-m, m)` numpy raises `IndexError` instead.  On the
int8-stored DOF values reaching line 136 the window always holds — a
negative stored value only arises from a node index ≥ 64, which forces
`2N ≥ 130 > 128 ≥ |z|`, and a nonnegative stored value is at most 127,
below `2N` whenever it arises — so the total `z mod m` form used here is
faithful for the scatter. -/
def npIndex (m : ℕ) (hm : 0 < m) (z : ℤ) : Fin m :=
  ⟨(z % (m : ℤ)).toNat, by
    have h1 : 0 ≤ z % (m : ℤ) := Int.emod_nonneg z (by exact_mod_cast hm.ne')
    have h2 : z % (m : ℤ) < (m : ℤ) := Int.emod_lt_of_pos z (by exact_mod_cast hm)
    omega⟩

/-- The flattened `ied[e]` row of stored (int8-truncated) DOF indices,
`[ind[a], ind[b]].flatten()` for endpoints `a`, `b` (lines 92-94). -/
def iedStored (M : MSA_truss nN nE R) (e : Fin nE) : Fin 4 → ℤ :=
  ![(ind_stored ((M.ien e).1 : ℕ)).1, (ind_stored ((M.ien e).1 : ℕ)).2,
    (ind_stored ((M.ien e).2 : ℕ)).1, (ind_stored ((M.ien e).2 : ℕ)).2]

/-- The `Kg` position addressed by `Kg[idx[r], idx[c]]` on line 136: the
int8-stored DOF index `idx = ied[e].flatten()`, resolved with numpy's
index semantics.  This equals the exact `2i, 2i+1` mapping exactly when
the node indices fit the int8 DOF store (all node indices ≤ 63, proven in
`dof_eq_dofSpec` below); from node 64 on the stored value wraps and the
scatter lands elsewhere (claims C3 and C9). -/
def dof (M : MSA_truss nN nE R) (e : Fin nE) : Fin 4 → Fin (2 * nN) :=
  fun r =>
    npIndex (2 * nN) (by have := (M.ien e).1.isLt; omega) (iedStored M e r)

/-- `Ke_truss` (lines 97-118), the global 4×4 stiffness matrix of element
`e`: with `T` the 2×4 transformation with rows `[nx/L, ny/L, 0, 0]` and
`[0, 0, nx/L, ny/L]` (lines 103-105) and `k = (E*A/L) * [[1,-1],[-1,1]]`
(lines 111-112), the result is `T.T @ k @ T` (line 115).  The source
returns the list of these over all elements; here the list is the function
of `e`. -/
def Ke_truss (sqrt : R → R) (M : MSA_truss nN nE R) (e : Fin nE) :
    Matrix (Fin 4) (Fin 4) R :=
  let nx := elemNx M e
  let ny := elemNy M e
  let L := elemL sqrt M e
  let T : Matrix (Fin 2) (Fin 4) R := !![nx / L, ny / L, 0, 0; 0, 0, nx / L, ny / L]
  let E := (M.props e).1
  let A := (M.props e).2
  let k : Matrix (Fin 2) (Fin 2) R := (E * A / L) • !![1, -1; -1, 1]
  T.transpose * k * T

/-- One `+=` step of the assembly loop (line 137): add `v` into entry
`(i, j)` of `K`. -/
def updEntry {m : ℕ} (K : Matrix (Fin m) (Fin m) R) (i j : Fin m) (v : R) :
    Matrix (Fin m) (Fin m) R :=
  fun a b => if a = i ∧ b = j then K a b + v else K a b

/-- `KG` (lines 121-138): start from the zero `2N×2N` matrix (line 129) and
for every element, row and column add the element-matrix entry at the DOF
positions (lines 133-137). -/
def KG (sqrt : R → R) (M : MSA_truss nN nE R) :
    Matrix (Fin (2 * nN)) (Fin (2 * nN)) R :=
  (List.finRange nE).foldl
    (fun K e =>
      (List.finRange 4).foldl
        (fun K r =>
          (List.finRange 4).foldl
            (fun K c => updEntry K (dof M e r) (dof M e c) (Ke_truss sqrt M e r c))
            K)
        K)
    0

/-- The DOF indices with known force: `U_idx = (P != 'unk')` (line 147),
in ascending DOF order as produced by a numpy boolean mask. -/
def Uidx (M : MSA_truss nN nE R) : List (Fin (2 * nN)) :=
  (List.finRange (2 * nN)).filter fun i => (M.P i).isSome

/-- The DOF indices with unknown force: `S_idx = (P == 'unk')` (line 148). -/
def Sidx (M : MSA_truss nN nE R) : List (Fin (2 * nN)) :=
  (List.finRange (2 * nN)).filter fun i => !(M.P i).isSome

/-- Errors the numpy code can raise on the modelled paths:
`ValueError` from `.astype(np.float32)` on the `'unk'` string (line 152),
and the generic `numpy.linalg.LinAlgError` raised by `np.linalg.inv` on an
exactly singular matrix (line 163).  The source has no other error values;
in particular it has no structural-instability diagnostic. -/
inductive PyError where
  | valueError : PyError
  | linAlgError : PyError
deriving DecidableEq

instance {ε α : Type} [DecidableEq ε] [DecidableEq α] : DecidableEq (Except ε α) :=
  fun x y =>
    match x, y with
    | .error a, .error b =>
        if h : a = b then .isTrue (by rw [h])
        else .isFalse (fun hc => h (by cases hc; rfl))
    | .error _, .ok _ => .isFalse (fun hc => Except.noConfusion hc)
    | .ok _, .error _ => .isFalse (fun hc => Except.noConfusion hc)
    | .ok a, .ok b =>
        if h : a = b then .isTrue (by rw [h])
        else .isFalse (fun hc => h (by cases hc; rfl))

/-- `partition` (lines 141-158).  Returns, in source order,
`(Pu, ds, Kuu, Kus, Ksu, Kss)`.  `Pu = P[U_idx].astype(float32)` never
faults because every `U_idx` entry of `P` is numeric by definition of the
mask, so `getD 0` below never takes its default; `ds = u[S_idx].astype`
(line 152) raises `ValueError` iff some known-force... some unknown-force
DOF has `u = 'unk'`.  The local `du = u[U_idx]` (line 151) is gathered and
then discarded (it is not returned), so it does not appear here. -/
def partition (sqrt : R → R) (M : MSA_truss nN nE R) :
    Except PyError
      ((Fin (Uidx M).length → R) × (Fin (Sidx M).length → R) ×
        Matrix (Fin (Uidx M).length) (Fin (Uidx M).length) R ×
        Matrix (Fin (Uidx M).length) (Fin (Sidx M).length) R ×
        Matrix (Fin (Sidx M).length) (Fin (Uidx M).length) R ×
        Matrix (Fin (Sidx M).length) (Fin (Sidx M).length) R) :=
  let Kg := KG sqrt M
  if h : ∀ a : Fin (Sidx M).length, ((M.u ((Sidx M).get a)).isSome : Bool) = true then
    .ok
      (fun a => (M.P ((Uidx M).get a)).getD 0,
       fun a => (M.u ((Sidx M).get a)).get (h a),
       Matrix.of fun a b => Kg ((Uidx M).get a) ((Uidx M).get b),
       Matrix.of fun a b => Kg ((Uidx M).get a) ((Sidx M).get b),
       Matrix.of fun a b => Kg ((Sidx M).get a) ((Uidx M).get b),
       Matrix.of fun a b => Kg ((Sidx M).get a) ((Sidx M).get b))
  else .error .valueError

/-- `np.linalg.inv` on the nonsingular path: `det⁻¹ • adjugate`.  The
singularity check that makes numpy raise instead is in `solve`. -/
def linalg_inv {n : ℕ} (A : Matrix (Fin n) (Fin n) R) : Matrix (Fin n) (Fin n) R :=
  A.det⁻¹ • A.adjugate

/-- `solve` (lines 161-166): partition, invert `Kuu` (raising the generic
`LinAlgError` when it is exactly singular), then
`du = inv(Kuu) @ (Pu - Kus @ ds)` and `Rs = Ksu @ du + Kss @ ds`. -/
def solve [DecidableEq R] (sqrt : R → R) (M : MSA_truss nN nE R) :
    Except PyError ((Fin (Uidx M).length → R) × (Fin (Sidx M).length → R)) :=
  (partition sqrt M).bind fun part =>
    let Pu := part.1
    let ds := part.2.1
    let Kuu := part.2.2.1
    let Kus := part.2.2.2.1
    let Ksu := part.2.2.2.2.1
    let Kss := part.2.2.2.2.2
    if Kuu.det = 0 then .error .linAlgError
    else
      let du := (linalg_inv Kuu).mulVec (Pu - Kus.mulVec ds)
      let Rs := Ksu.mulVec du + Kss.mulVec ds
      .ok (du, Rs)

/-! ### Refined float model of `Ke_truss` (non-finite tracking)

`Option R` as scalar: `some x` is a finite float value, `none` any
non-finite (`nan`/`inf`) one.  Addition and multiplication of finite
operands are exact, any non-finite operand yields a non-finite result
(this covers IEEE behaviour on all operations reachable in `Ke_truss`;
note `0 * inf = nan` and `x + nan = nan` are non-finite as well), and
division by zero yields a non-finite value (`0/0 = nan`, `x/0 = ±inf`).
Divisors in `Ke_truss` are always finite (`L` is a norm of finite data),
so the `none`-divisor case never occurs on the modelled paths; float
overflow of finite arithmetic is ignored. -/

/-- Float addition on the finite/non-finite abstraction. -/
def optAdd : Option R → Option R → Option R
  | some a, some b => some (a + b)
  | _, _ => none

/-- Float multiplication on the finite/non-finite abstraction. -/
def optMul : Option R → Option R → Option R
  | some a, some b => some (a * b)
  | _, _ => none

/-- Float division on the finite/non-finite abstraction: division by zero
produces a non-finite value instead of raising. -/
def optDiv [DecidableEq R] : Option R → Option R → Option R
  | some a, some b => if b = 0 then none else some (a / b)
  | _, _ => none

/-- Dot product of float vectors (the sum inside `@`). -/
def optDot {n : ℕ} (v w : Fin n → Option R) : Option R :=
  (List.finRange n).foldl (fun acc a => optAdd acc (optMul (v a) (w a))) (some 0)

/-- Float matrix product (numpy `@`). -/
def fmul {l m n : ℕ} (A : Matrix (Fin l) (Fin m) (Option R))
    (B : Matrix (Fin m) (Fin n) (Option R)) : Matrix (Fin l) (Fin n) (Option R) :=
  fun i j => optDot (fun a => A i a) (fun a => B a j)

/-- `Ke_truss` for one element (lines 97-118) in the refined float model:
same computation as `Ke_truss`, with every arithmetic operation tracking
IEEE non-finiteness.  The inputs (coordinates, properties) are finite. -/
def Ke_trussF [DecidableEq R] (sqrt : R → R) (M : MSA_truss nN nE R) (e : Fin nE) :
    Matrix (Fin 4) (Fin 4) (Option R) :=
  let nx : Option R := some (elemNx M e)
  let ny : Option R := some (elemNy M e)
  let L : Option R := (optAdd (optMul nx nx) (optMul ny ny)).map sqrt
  let T : Matrix (Fin 2) (Fin 4) (Option R) :=
    !![optDiv nx L, optDiv ny L, some 0, some 0;
       some 0, some 0, optDiv nx L, optDiv ny L]
  let EA_L : Option R := optDiv (some ((M.props e).1 * (M.props e).2)) L
  let k : Matrix (Fin 2) (Fin 2) (Option R) :=
    !![optMul EA_L (some 1), optMul EA_L (some (-1));
       optMul EA_L (some (-1)), optMul EA_L (some 1)]
  fmul (fmul T.transpose k) T

/-! ### Spec-side definitions (for refinement-style claims) -/

/-- The matrix that is zero except for value `v` at entry `(i, j)`. -/
def single {m : ℕ} (i j : Fin m) (v : R) : Matrix (Fin m) (Fin m) R :=
  fun a b => if a = i ∧ b = j then v else 0

/-- Modelled from the spec (§4.1/§4.2, claim C3): the exact DOF mapping
`node i → DOFs {2i, 2i+1}`, with no int8 truncation. -/
def dofSpec (M : MSA_truss nN nE R) (e : Fin nE) : Fin 4 → Fin (2 * nN) :=
  ![⟨2 * ((M.ien e).1 : ℕ), by have := (M.ien e).1.isLt; omega⟩,
    ⟨2 * ((M.ien e).1 : ℕ) + 1, by have := (M.ien e).1.isLt; omega⟩,
    ⟨2 * ((M.ien e).2 : ℕ), by have := (M.ien e).2.isLt; omega⟩,
    ⟨2 * ((M.ien e).2 : ℕ) + 1, by have := (M.ien e).2.isLt; omega⟩]

/-- Modelled from the spec (§4.2, claim C3): one element's 4×4 matrix
scattered to the global positions of the spec's exact DOF mapping
`node i → DOFs {2i, 2i+1}`. -/
def scatterSpec (sqrt : R → R) (M : MSA_truss nN nE R) (e : Fin nE) :
    Matrix (Fin (2 * nN)) (Fin (2 * nN)) R :=
  fun i j => ∑ r : Fin 4, ∑ c : Fin 4,
    if i = dofSpec M e r ∧ j = dofSpec M e c then Ke_truss sqrt M e r c else 0

/-- Modelled from the spec (§4.1, claim C2): the 2×4 transformation built
from the direction cosines `(c, s) = (dx/L, dy/L)`. -/
def specT (sqrt : R → R) (M : MSA_truss nN nE R) (e : Fin nE) :
    Matrix (Fin 2) (Fin 4) R :=
  let c := elemNx M e / elemL sqrt M e
  let s := elemNy M e / elemL sqrt M e
  !![c, s, 0, 0; 0, 0, c, s]

/-- Modelled from the spec (§4.1, claim C2): the 1D local axial stiffness
`k = (E·A/L) · [[1, -1], [-1, 1]]`. -/
def speck (sqrt : R → R) (M : MSA_truss nN nE R) (e : Fin nE) :
    Matrix (Fin 2) (Fin 2) R :=
  ((M.props e).1 * (M.props e).2 / elemL sqrt M e) • !![1, -1; -1, 1]

/-- The direction 4-vector `(c, s, -c, -s)`; `Ke_truss` is
`(E·A/L) · v vᵀ` for this `v` (helper for C2/C4). -/
def elemDir (sqrt : R → R) (M : MSA_truss nN nE R) (e : Fin nE) : Fin 4 → R :=
  ![elemNx M e / elemL sqrt M e, elemNy M e / elemL sqrt M e,
    -(elemNx M e / elemL sqrt M e), -(elemNy M e / elemL sqrt M e)]

/-! ### Concrete inputs -/

/-- The geometry of the repository regression test (`test_msa.py`, lines
6-11): nodes `(0,0)`, `(1,0)`, `(1,1)`, elements `(0,1)` and `(0,2)`,
`E = A = 1`, with the boundary vectors left as parameters. -/
def mk3 (u P : Fin 6 → Option ℝ) : MSA_truss 3 2 ℝ where
  coords := ![(0, 0), (1, 0), (1, 1)]
  ien := ![(0, 1), (0, 2)]
  props := ![(1, 1), (1, 1)]
  u := u
  P := P

/-- The boundary vectors of the regression test itself:
`P = [0, -1, unk, unk, unk, unk]`, `u = [unk, unk, 0, 0, 0, 0]` — the load
`(0, -1)` is applied at node 0 and nodes 1 and 2 are fixed. -/
def testT : MSA_truss 3 2 ℝ :=
  mk3 ![none, none, some 0, some 0, some 0, some 0]
    ![some 0, some (-1), none, none, none, none]

/-- The input described by claim C4 (and spec §8): node 0 and node 1 fixed,
node 2 free with applied force `(0, -1)` — i.e. `u = [0, 0, 0, 0, unk, unk]`,
`P = [unk, unk, unk, unk, 0, -1]`. -/
def claimT : MSA_truss 3 2 ℝ :=
  mk3 ![some 0, some 0, some 0, some 0, none, none]
    ![none, none, none, none, some 0, some (-1)]

/-- A 2-node, 1-element rational input family: nodes `(0,0)` and `(1,0)`
(length 1, so any `sqrt` with `sqrt 1 = 1` is exact — `id` is used),
`E = A = 1`. -/
def mk2 (u P : Fin 4 → Option ℚ) : MSA_truss 2 1 ℚ where
  coords := ![(0, 0), (1, 0)]
  ien := ![(0, 1)]
  props := ![(1, 1)]
  u := u
  P := P

/-- Well-formed witness input: force known at DOF 0 only. -/
def W1 : MSA_truss 2 1 ℚ :=
  mk2 ![none, some 0, some 0, some 0] ![some 1, none, none, none]

/-- Input with DOF 0 known in BOTH `u` and `P` (malformed boundary
conditions per the spec). -/
def W5 : MSA_truss 2 1 ℚ :=
  mk2 ![some 9, some 0, some 0, some 0] ![some 1, none, none, none]

/-- Input whose reduced block `Kuu` is exactly singular (both DOFs of the
free node 1 are force-known, but the single horizontal element gives node 1
no vertical stiffness). -/
def W7 : MSA_truss 2 1 ℚ :=
  mk2 ![some 0, some 0, none, none] ![none, none, some 0, some 0]

/-- Like `W1` but with a (spurious) numeric `u` entry at the known-force
DOF 0; differs from `W1` only there. -/
def W10b : MSA_truss 2 1 ℚ :=
  mk2 ![some 5, some 0, some 0, some 0] ![some 1, none, none, none]

/-- A 2-node vertical element over ℝ for the C2 witness. -/
def WC2 : MSA_truss 2 1 ℝ where
  coords := ![(0, 0), (0, 1)]
  ien := ![(0, 1)]
  props := ![(1, 1)]
  u := fun _ => none
  P := fun _ => none

/-- A degenerate element: both ends at node 0, length 0. -/
def WDeg : MSA_truss 1 1 ℚ where
  coords := ![(0, 0)]
  ien := ![(0, 0)]
  props := ![(2, 3)]
  u := fun _ => none
  P := fun _ => none

/-- A 65-node model with a single unit element from node 0 to node 64:
node 64's stored DOF pair wraps (`ind_stored 64 = (-128, -127)`), so the
program scatters its stiffness to positions 2 and 3 of the 130×130 matrix
instead of 128 and 129. -/
def M65 : MSA_truss 65 1 ℚ where
  coords := fun i => if i = (64 : Fin 65) then (1, 0) else (0, 0)
  ien := ![((0 : Fin 65), (64 : Fin 65))]
  props := ![(1, 1)]
  u := fun _ => none
  P := fun _ => none

/-! ## Theorems -/

theorem updEntry_eq_add_single {m : ℕ} (K : Matrix (Fin m) (Fin m) R) (i j : Fin m)
    (v : R) : updEntry K i j v = K + single i j v := by
  funext a b
  by_cases h : a = i ∧ b = j <;> simp [updEntry, single, h, Matrix.add_apply]

theorem foldl_add_eq {α β : Type} [AddCommMonoid β] (f : α → β) (l : List α) :
    ∀ K : β, l.foldl (fun s a => s + f a) K = K + (l.map f).sum := by
  induction l with
  | nil => intro K; simp
  | cons x xs ih =>
      intro K
      simp only [List.foldl_cons, List.map_cons, List.sum_cons, ih, add_assoc]

theorem foldl_upd_eq {α : Type} {m : ℕ} (l : List α) (p q : α → Fin m) (v : α → R) :
    ∀ K : Matrix (Fin m) (Fin m) R,
      l.foldl (fun K a => updEntry K (p a) (q a) (v a)) K
        = K + (l.map fun a => single (p a) (q a) (v a)).sum := by
  induction l with
  | nil => intro K; simp
  | cons x xs ih =>
      intro K
      rw [List.foldl_cons, ih, updEntry_eq_add_single]
      simp [add_assoc]

theorem inner_fold (sqrt : R → R) (M : MSA_truss nN nE R) (e : Fin nE) (r : Fin 4)
    (K : Matrix (Fin (2 * nN)) (Fin (2 * nN)) R) :
    (List.finRange 4).foldl
        (fun K c => updEntry K (dof M e r) (dof M e c) (Ke_truss sqrt M e r c)) K
      = K + ∑ c : Fin 4, single (dof M e r) (dof M e c) (Ke_truss sqrt M e r c) :=
  (foldl_upd_eq (List.finRange 4) (fun _ => dof M e r) (fun c => dof M e c)
      (fun c => Ke_truss sqrt M e r c) K).trans (by rw [Fin.sum_univ_def])

theorem middle_fold (sqrt : R → R) (M : MSA_truss nN nE R) (e : Fin nE)
    (K : Matrix (Fin (2 * nN)) (Fin (2 * nN)) R) :
    (List.finRange 4).foldl
        (fun K r =>
          (List.finRange 4).foldl
            (fun K c => updEntry K (dof M e r) (dof M e c) (Ke_truss sqrt M e r c)) K)
        K
      = K + ∑ r : Fin 4, ∑ c : Fin 4,
          single (dof M e r) (dof M e c) (Ke_truss sqrt M e r c) := by
  simp only [inner_fold]
  exact (foldl_add_eq
      (fun r => ∑ c : Fin 4, single (dof M e r) (dof M e c) (Ke_truss sqrt M e r c))
      (List.finRange 4) K).trans (by rw [Fin.sum_univ_def])

theorem KG_eq_sum (sqrt : R → R) (M : MSA_truss nN nE R) :
    KG sqrt M = ∑ e : Fin nE, ∑ r : Fin 4, ∑ c : Fin 4,
      single (dof M e r) (dof M e c) (Ke_truss sqrt M e r c) := by
  unfold KG
  simp only [middle_fold]
  exact (foldl_add_eq _ (List.finRange nE) 0).trans
    (by rw [← Fin.sum_univ_def, zero_add])

theorem KG_apply (sqrt : R → R) (M : MSA_truss nN nE R) (i j : Fin (2 * nN)) :
    KG sqrt M i j = ∑ e : Fin nE, ∑ r : Fin 4, ∑ c : Fin 4,
      (if i = dof M e r ∧ j = dof M e c then Ke_truss sqrt M e r c else 0) := by
  rw [KG_eq_sum]
  simp [single, Matrix.sum_apply]

theorem npIndex_eq {m : ℕ} {hm : 0 < m} {z : ℤ} {v : ℕ} (hv : v < m)
    (hz : z % (m : ℤ) = v) : npIndex m hm z = ⟨v, hv⟩ := by
  apply Fin.ext
  show (z % (m : ℤ)).toNat = v
  rw [hz]
  omega

theorem iedStored_eq (M : MSA_truss nN nE R) (e : Fin nE) (r : Fin 4) :
    iedStored M e r = toInt8 ((dofSpec M e r : ℕ)) := by
  fin_cases r <;> rfl

theorem stored_dof_small {nN : ℕ} (h : nN ≤ 64) (v : ℕ) (hv : v < 2 * nN) :
    (toInt8 v % ((2 * nN : ℕ) : ℤ)).toNat = v := by
  have h8 : toInt8 v = v := by unfold toInt8; omega
  rw [h8, Int.emod_eq_of_lt (by omega) (by exact_mod_cast hv)]
  omega

/-- When every node index fits the int8 DOF store (`nN ≤ 64`, so all DOF
values are at most 127), the stored scatter positions coincide with the
spec's exact `2i, 2i+1` mapping. -/
theorem dof_eq_dofSpec (M : MSA_truss nN nE R) (e : Fin nE) (h : nN ≤ 64) :
    dof M e = dofSpec M e := by
  funext r
  apply Fin.ext
  show (iedStored M e r % ((2 * nN : ℕ) : ℤ)).toNat = ((dofSpec M e r : ℕ))
  rw [iedStored_eq M e r]
  exact stored_dof_small h _ (dofSpec M e r).isLt

/-- C3 (amended): for every input small enough for the int8 DOF store
(`nN ≤ 64`, i.e. every node index ≤ 63), the assembled global stiffness
matrix `KG` is the all-zero `2N×2N` matrix plus the sum over all elements
of each element's 4×4 stiffness matrix scattered to the exact positions
`node i → DOFs {2i, 2i+1}`; shared DOFs accumulate by addition.  From 65
nodes on the int8-stored positions wrap and the program scatters
elsewhere (see the counterexample at `M65`). -/
theorem C3_amended_assembly_scatter_sum (sqrt : R → R) (M : MSA_truss nN nE R)
    (hsmall : nN ≤ 64) :
    KG sqrt M = 0 + ∑ e : Fin nE, scatterSpec sqrt M e := by
  rw [zero_add, KG_eq_sum]
  refine Finset.sum_congr rfl fun e _ => ?_
  funext i j
  simp [scatterSpec, single, Matrix.sum_apply, dof_eq_dofSpec M e hsmall]

/-- Witness for the amended C3 at the 2-node input `W1`. -/
theorem C3_witness :
    (2 : ℕ) ≤ 64 ∧
      KG (fun x => x) W1 = 0 + ∑ e : Fin 1, scatterSpec (fun x => x) W1 e :=
  ⟨by norm_num, C3_amended_assembly_scatter_sum (fun x => x) W1 (by norm_num)⟩

theorem Ke_truss_apply (sqrt : R → R) (M : MSA_truss nN nE R) (e : Fin nE)
    (i j : Fin 4) :
    Ke_truss sqrt M e i j
      = ((M.props e).1 * (M.props e).2 / elemL sqrt M e)
          * (elemDir sqrt M e i * elemDir sqrt M e j) := by
  fin_cases i <;> fin_cases j <;>
    (simp [Ke_truss, elemDir, Matrix.mul_apply, Matrix.transpose_apply,
      Matrix.smul_apply, Fin.sum_univ_succ, Matrix.cons_val_zero,
      Matrix.cons_val_one, Matrix.head_cons]
     ring)

theorem Ke_symm (sqrt : R → R) (M : MSA_truss nN nE R) (e : Fin nE) (i j : Fin 4) :
    Ke_truss sqrt M e i j = Ke_truss sqrt M e j i := by
  rw [Ke_truss_apply, Ke_truss_apply]; ring

theorem dofM65_0 : dof M65 0 0 = ⟨0, by norm_num⟩ := rfl

theorem dofM65_1 : dof M65 0 1 = ⟨1, by norm_num⟩ := rfl

theorem dofM65_2 : dof M65 0 2 = ⟨2, by norm_num⟩ := rfl

theorem dofM65_3 : dof M65 0 3 = ⟨3, by norm_num⟩ := rfl

theorem dofSpecM65_0 : dofSpec M65 0 0 = ⟨0, by norm_num⟩ := rfl

theorem dofSpecM65_1 : dofSpec M65 0 1 = ⟨1, by norm_num⟩ := rfl

theorem dofSpecM65_2 : dofSpec M65 0 2 = ⟨128, by norm_num⟩ := rfl

theorem dofSpecM65_3 : dofSpec M65 0 3 = ⟨129, by norm_num⟩ := rfl

theorem nxM65 : elemNx M65 0 = 1 := by
  norm_num [elemNx, M65]
  decide

theorem nyM65 : elemNy M65 0 = 0 := by
  norm_num [elemNy, M65]
  decide

theorem LM65 : elemL (fun x => x) M65 0 = 1 := by
  simp only [elemL, nxM65, nyM65]
  norm_num

theorem dirM65 : elemDir (fun x => x) M65 0 = ![1, 0, -1, 0] := by
  funext r
  simp only [elemDir, nxM65, nyM65, LM65]
  fin_cases r <;> norm_num

theorem KeM65 (r c : Fin 4) :
    Ke_truss (fun x => x) M65 0 r c = ![1, 0, -1, 0] r * ![1, 0, -1, 0] c := by
  rw [Ke_truss_apply, dirM65, LM65]
  norm_num [M65]

theorem KGM65_22 : KG (fun x => x) M65 ⟨2, by norm_num⟩ ⟨2, by norm_num⟩ = 1 := by
  rw [KG_apply]
  simp only [Fin.sum_univ_one, Fin.sum_univ_four, dofM65_0, dofM65_1, dofM65_2,
    dofM65_3, KeM65, Fin.mk.injEq]
  norm_num

theorem specM65_22 :
    (0 + ∑ e : Fin 1, scatterSpec (fun x => x) M65 e)
        ⟨2, by norm_num⟩ ⟨2, by norm_num⟩ = 0 := by
  simp only [Matrix.add_apply, Matrix.zero_apply, Matrix.sum_apply, scatterSpec,
    Fin.sum_univ_one, Fin.sum_univ_four, dofSpecM65_0, dofSpecM65_1,
    dofSpecM65_2, dofSpecM65_3, Fin.mk.injEq]
  norm_num

/-- Counterexample to C3: on the 65-node input `M65`, the program's
int8-stored DOF pair for node 64 wraps to `(-128, -127)` and numpy's
negative indexing scatters the element's stiffness to rows/columns 2 and
3 instead of 128 and 129, so the assembled `KG` is NOT the sum of element
matrices scattered to the exact `2i, 2i+1` positions: the matrices differ
at entry `(2, 2)` (program: 1, exact scatter: 0). -/
theorem C3_counterexample :
    ¬ (KG (fun x => x) M65 = 0 + ∑ e : Fin 1, scatterSpec (fun x => x) M65 e) := by
  intro h
  have h22 := congrFun (congrFun h ⟨2, by norm_num⟩) ⟨2, by norm_num⟩
  have h10 : (1 : ℚ) = 0 := KGM65_22.symm.trans (h22.trans specM65_22)
  norm_num at h10

/-- C8: for every input whose elements all have distinct endpoints, the
assembled global stiffness matrix is symmetric: `Kg[i,j] = Kg[j,i]` for all
`i`, `j` (exact arithmetic model). -/
theorem C8_KG_symmetric (sqrt : R → R) (M : MSA_truss nN nE R)
    (_hdist : ∀ e : Fin nE, M.coords (M.ien e).1 ≠ M.coords (M.ien e).2) :
    ∀ i j, KG sqrt M i j = KG sqrt M j i := by
  intro i j
  rw [KG_apply, KG_apply]
  refine Finset.sum_congr rfl fun e _ => ?_
  rw [Finset.sum_comm]
  refine Finset.sum_congr rfl fun x _ => Finset.sum_congr rfl fun y _ => ?_
  rw [Ke_symm sqrt M e y x]
  exact if_congr and_comm rfl rfl

/-- Witness for C8 at a concrete rational input. -/
theorem C8_witness :
    (∀ e : Fin 1, W1.coords (W1.ien e).1 ≠ W1.coords (W1.ien e).2) ∧
      KG (fun x => x) W1 0 1 = KG (fun x => x) W1 1 0 :=
  ⟨by decide, C8_KG_symmetric (fun x => x) W1 (by decide) 0 1⟩

theorem elemL_pos (M : MSA_truss nN nE ℝ) (e : Fin nE)
    (hne : M.coords (M.ien e).1 ≠ M.coords (M.ien e).2) :
    0 < elemL Real.sqrt M e := by
  have hnn : elemNx M e ≠ 0 ∨ elemNy M e ≠ 0 := by
    by_contra h
    push_neg at h
    exact hne (Prod.ext_iff.mpr ⟨sub_eq_zero.mp h.1, sub_eq_zero.mp h.2⟩).symm
  have hsum : 0 < elemNx M e ^ 2 + elemNy M e ^ 2 := by
    rcases hnn with h | h
    · have : 0 < elemNx M e ^ 2 := by positivity
      nlinarith [sq_nonneg (elemNy M e)]
    · have : 0 < elemNy M e ^ 2 := by positivity
      nlinarith [sq_nonneg (elemNx M e)]
  exact Real.sqrt_pos.mpr hsum

theorem elemL_sq (M : MSA_truss nN nE ℝ) (e : Fin nE)
    (hne : M.coords (M.ien e).1 ≠ M.coords (M.ien e).2) :
    elemL Real.sqrt M e ^ 2 = elemNx M e ^ 2 + elemNy M e ^ 2 := by
  have hL := elemL_pos M e hne
  unfold elemL at *
  exact Real.sq_sqrt (by nlinarith)

/-- C2: for every element with distinct endpoints (so `L > 0`) and valid
properties `E > 0`, `A > 0`, `Ke_truss` produces exactly the matrix
`Tᵀ · k · T` built from `k = (E·A/L)·[[1,-1],[-1,1]]` and the
direction-cosine transformation `T`, and this matrix is symmetric,
positive-semidefinite and of rank 1. -/
theorem C2_element_stiffness (M : MSA_truss nN nE ℝ) (e : Fin nE)
    (hne : M.coords (M.ien e).1 ≠ M.coords (M.ien e).2)
    (hE : 0 < (M.props e).1) (hA : 0 < (M.props e).2) :
    Ke_truss Real.sqrt M e
        = (specT Real.sqrt M e).transpose * speck Real.sqrt M e
            * specT Real.sqrt M e ∧
      (Ke_truss Real.sqrt M e).IsSymm ∧
      (Ke_truss Real.sqrt M e).PosSemidef ∧
      (Ke_truss Real.sqrt M e).rank = 1 := by
  have hL : 0 < elemL Real.sqrt M e := elemL_pos M e hne
  have hq : 0 < (M.props e).1 * (M.props e).2 / elemL Real.sqrt M e := by positivity
  set q : ℝ := (M.props e).1 * (M.props e).2 / elemL Real.sqrt M e with hqdef
  set B : Matrix (Fin 1) (Fin 4) ℝ :=
    Matrix.of fun _ j => Real.sqrt q * elemDir Real.sqrt M e j with hBdef
  have hss : Real.sqrt q * Real.sqrt q = q := Real.mul_self_sqrt hq.le
  have hKeB : Ke_truss Real.sqrt M e = B.conjTranspose * B := by
    funext i j
    rw [Ke_truss_apply]
    rw [← hqdef]
    simp only [Matrix.mul_apply, Matrix.conjTranspose_apply, hBdef, Matrix.of_apply,
      Fin.sum_univ_one, star_trivial]
    linear_combination (-(elemDir Real.sqrt M e i * elemDir Real.sqrt M e j)) * hss
  have hcs : (elemNx M e / elemL Real.sqrt M e) ^ 2
      + (elemNy M e / elemL Real.sqrt M e) ^ 2 = 1 := by
    have h2 := elemL_sq M e hne
    field_simp
    linarith [h2]
  refine ⟨rfl, ?_, ?_, ?_⟩
  · exact Matrix.ext fun i j => by
      rw [Matrix.transpose_apply]; exact Ke_symm Real.sqrt M e j i
  · rw [hKeB]; exact Matrix.posSemidef_conjTranspose_mul_self B
  · rw [hKeB, Matrix.rank_conjTranspose_mul_self]
    have hle : B.rank ≤ 1 := B.rank_le_card_height.trans_eq (Fintype.card_fin 1)
    have hvec : B.mulVec (elemDir Real.sqrt M e) ≠ 0 := by
      intro h0
      have h00 := congrFun h0 0
      simp only [Matrix.mulVec, Matrix.dotProduct, hBdef, Matrix.of_apply,
        Fin.sum_univ_four, Pi.zero_apply] at h00
      have hd : elemDir Real.sqrt M e 0 = elemNx M e / elemL Real.sqrt M e := rfl
      have hd1 : elemDir Real.sqrt M e 1 = elemNy M e / elemL Real.sqrt M e := rfl
      have hd2 : elemDir Real.sqrt M e 2 = -(elemNx M e / elemL Real.sqrt M e) := rfl
      have hd3 : elemDir Real.sqrt M e 3 = -(elemNy M e / elemL Real.sqrt M e) := rfl
      rw [hd, hd1, hd2, hd3] at h00
      have hsq : 0 < Real.sqrt q := Real.sqrt_pos.mpr hq
      nlinarith [hcs, hsq]
    have hge : 1 ≤ B.rank := by
      rw [Matrix.rank]
      refine Nat.one_le_iff_ne_zero.mpr fun h0 => ?_
      have := Module.finrank_pos_iff_exists_ne_zero
        (R := ℝ) (M := ↥(LinearMap.range B.mulVecLin))
      have hpos : 0 < Module.finrank ℝ ↥(LinearMap.range B.mulVecLin) := by
        refine this.mpr ⟨⟨B.mulVec (elemDir Real.sqrt M e), ?_⟩, ?_⟩
        · exact ⟨elemDir Real.sqrt M e, by rw [Matrix.mulVecLin_apply]⟩
        · exact fun hzero => hvec (by simpa using congrArg Subtype.val hzero)
      omega
    omega

/-- Witness for C2: a unit vertical element with `E = A = 1`. -/
theorem C2_witness :
    (WC2.coords (WC2.ien 0).1 ≠ WC2.coords (WC2.ien 0).2) ∧
      (Ke_truss Real.sqrt WC2 0).PosSemidef ∧ (Ke_truss Real.sqrt WC2 0).rank = 1 := by
  have hne : WC2.coords (WC2.ien 0).1 ≠ WC2.coords (WC2.ien 0).2 := by
    simp [WC2, Prod.ext_iff]
  have h := C2_element_stiffness WC2 0 hne (by norm_num [WC2]) (by norm_num [WC2])
  exact ⟨hne, h.2.2.1, h.2.2.2⟩

/-- C1: whenever partition succeeds and yields a nonsingular `Kuu`, `solve`
returns `(du, Rs)` with `du` the solution of `Kuu · du = Pu − Kus · ds` and
`Rs = Ksu · du + Kss · ds`, for the blocks produced by the partitioner. -/
theorem C1_solve_partitioned_system [DecidableEq R] (sqrt : R → R)
    (M : MSA_truss nN nE R)
    (Pu : Fin (Uidx M).length → R) (ds : Fin (Sidx M).length → R)
    (Kuu : Matrix (Fin (Uidx M).length) (Fin (Uidx M).length) R)
    (Kus : Matrix (Fin (Uidx M).length) (Fin (Sidx M).length) R)
    (Ksu : Matrix (Fin (Sidx M).length) (Fin (Uidx M).length) R)
    (Kss : Matrix (Fin (Sidx M).length) (Fin (Sidx M).length) R)
    (hp : partition sqrt M = .ok (Pu, ds, Kuu, Kus, Ksu, Kss))
    (hdet : Kuu.det ≠ 0) :
    ∃ du Rs, solve sqrt M = .ok (du, Rs) ∧
      Kuu.mulVec du = Pu - Kus.mulVec ds ∧
      Rs = Ksu.mulVec du + Kss.mulVec ds := by
  refine ⟨(linalg_inv Kuu).mulVec (Pu - Kus.mulVec ds),
    Ksu.mulVec ((linalg_inv Kuu).mulVec (Pu - Kus.mulVec ds)) + Kss.mulVec ds,
    ?_, ?_, rfl⟩
  · unfold solve
    rw [hp]
    simp [Except.bind, hdet]
  · have h1 : Kuu * linalg_inv Kuu = 1 := by
      unfold linalg_inv
      rw [Matrix.mul_smul, Matrix.mul_adjugate, smul_smul,
        inv_mul_cancel₀ hdet, one_smul]
    rw [Matrix.mulVec_mulVec, h1, Matrix.one_mulVec]

theorem dof0_mk2 (u P : Fin 4 → Option ℚ) : dof (mk2 u P) 0 0 = ⟨0, by omega⟩ :=
  npIndex_eq (by norm_num) (by norm_num [iedStored, ind_stored, toInt8, mk2])

theorem dof1_mk2 (u P : Fin 4 → Option ℚ) : dof (mk2 u P) 0 1 = ⟨1, by omega⟩ :=
  npIndex_eq (by norm_num) (by norm_num [iedStored, ind_stored, toInt8, mk2])

theorem dof2_mk2 (u P : Fin 4 → Option ℚ) : dof (mk2 u P) 0 2 = ⟨2, by omega⟩ :=
  npIndex_eq (by norm_num) (by norm_num [iedStored, ind_stored, toInt8, mk2])

theorem dof3_mk2 (u P : Fin 4 → Option ℚ) : dof (mk2 u P) 0 3 = ⟨3, by omega⟩ :=
  npIndex_eq (by norm_num) (by norm_num [iedStored, ind_stored, toInt8, mk2])

set_option maxRecDepth 8192 in
theorem KG_mk2 (u P : Fin 4 → Option ℚ) :
    KG (fun x => x) (mk2 u P)
      = !![1, 0, -1, 0; 0, 0, 0, 0; -1, 0, 1, 0; 0, 0, 0, 0] := by
  funext i j
  rw [KG_apply]
  fin_cases i <;> fin_cases j <;>
    (simp only [Fin.sum_univ_one, Fin.sum_univ_four, dof0_mk2, dof1_mk2,
       dof2_mk2, dof3_mk2, Fin.mk.injEq]
     norm_num [mk2, Ke_truss_apply, elemNx, elemNy, elemL, elemDir])

theorem W1_partition :
    partition (fun x => x) W1
      = .ok (![1], ![0, 0, 0], !![1], !![0, -1, 0],
          !![0; -1; 0], !![0, 0, 0; 0, 1, 0; 0, 0, 0]) := by
  have hKg : KG (fun x => x) W1
      = !![1, 0, -1, 0; 0, 0, 0, 0; -1, 0, 1, 0; 0, 0, 0, 0] := KG_mk2 _ _
  unfold partition
  rw [dif_pos (by decide)]
  refine congrArg Except.ok
    (Prod.ext ?_ (Prod.ext ?_ (Prod.ext ?_ (Prod.ext ?_ (Prod.ext ?_ ?_)))))
  · funext a; fin_cases a; rfl
  · funext a; fin_cases a <;> rfl
  all_goals
    funext a b
    fin_cases a <;> fin_cases b <;>
      simp only [Matrix.of_apply, hKg] <;> rfl

/-- Witness for C1 at the concrete rational input `W1`. -/
theorem C1_witness :
    partition (fun x => x) W1
        = .ok (![1], ![0, 0, 0], !![1], !![0, -1, 0],
            !![0; -1; 0], !![0, 0, 0; 0, 1, 0; 0, 0, 0]) ∧
      ∃ du Rs, solve (fun x => x) W1 = .ok (du, Rs) ∧
        (!![1] : Matrix (Fin 1) (Fin 1) ℚ).mulVec du
            = ![1] - (!![0, -1, 0] : Matrix (Fin 1) (Fin 3) ℚ).mulVec ![0, 0, 0] ∧
        Rs = (!![0; -1; 0] : Matrix (Fin 3) (Fin 1) ℚ).mulVec du
            + (!![0, 0, 0; 0, 1, 0; 0, 0, 0] : Matrix (Fin 3) (Fin 3) ℚ).mulVec
                ![0, 0, 0] :=
  ⟨W1_partition,
    C1_solve_partitioned_system (fun x => x) W1 ![1] ![0, 0, 0] !![1] !![0, -1, 0]
      !![0; -1; 0] !![0, 0, 0; 0, 1, 0; 0, 0, 0] W1_partition
      (by rw [Matrix.det_fin_one_of]; norm_num)⟩

/-- Amended C5: the partitioner performs no boundary-condition validation.
It succeeds whenever every unknown-force DOF has a numeric `u` entry, even
when some DOF is known in both `u` and `P`. -/
theorem C5_amended_no_validation [DecidableEq R] (sqrt : R → R)
    (M : MSA_truss nN nE R)
    (h : ∀ a : Fin (Sidx M).length, ((M.u ((Sidx M).get a)).isSome : Bool) = true) :
    ∃ B, partition sqrt M = .ok B := by
  unfold partition
  rw [dif_pos h]
  exact ⟨_, rfl⟩

/-- Counterexample to C5: in `W5` DOF 0 is known in both `u` and `P`, yet
the partitioner silently returns a result instead of raising a
boundary-condition error. -/
theorem C5_counterexample :
    (∃ i, (W5.u i).isSome ∧ (W5.P i).isSome) ∧
      (partition (fun x => x) W5).isOk = true := by
  constructor
  · exact ⟨0, by decide⟩
  · decide

/-- Witness for the amended C5 at `W5`. -/
theorem C5_witness : ∃ B, partition (fun x => x) W5 = .ok B :=
  C5_amended_no_validation (fun x => x) W5 (by decide)

/-- Amended C7: when the partition succeeds but `Kuu` is exactly singular,
`solve` fails with the generic `numpy.linalg.LinAlgError` raised by
`np.linalg.inv`; the code has no separate structural-instability
diagnostic. -/
theorem C7_amended_generic_linalg_error [DecidableEq R] (sqrt : R → R)
    (M : MSA_truss nN nE R)
    (Pu : Fin (Uidx M).length → R) (ds : Fin (Sidx M).length → R)
    (Kuu : Matrix (Fin (Uidx M).length) (Fin (Uidx M).length) R)
    (Kus : Matrix (Fin (Uidx M).length) (Fin (Sidx M).length) R)
    (Ksu : Matrix (Fin (Sidx M).length) (Fin (Uidx M).length) R)
    (Kss : Matrix (Fin (Sidx M).length) (Fin (Sidx M).length) R)
    (hp : partition sqrt M = .ok (Pu, ds, Kuu, Kus, Ksu, Kss))
    (hdet : Kuu.det = 0) :
    solve sqrt M = .error .linAlgError := by
  unfold solve
  rw [hp]
  simp [Except.bind, hdet]

theorem W7_partition :
    partition (fun x => x) W7
      = .ok (![0, 0], ![0, 0], !![1, 0; 0, 0], !![-1, 0; 0, 0],
          !![-1, 0; 0, 0], !![1, 0; 0, 0]) := by
  have hKg : KG (fun x => x) W7
      = !![1, 0, -1, 0; 0, 0, 0, 0; -1, 0, 1, 0; 0, 0, 0, 0] := KG_mk2 _ _
  unfold partition
  rw [dif_pos (by decide)]
  refine congrArg Except.ok
    (Prod.ext ?_ (Prod.ext ?_ (Prod.ext ?_ (Prod.ext ?_ (Prod.ext ?_ ?_)))))
  · funext a; fin_cases a <;> rfl
  · funext a; fin_cases a <;> rfl
  all_goals
    funext a b
    fin_cases a <;> fin_cases b <;>
      simp only [Matrix.of_apply, hKg] <;> rfl

/-- Counterexample to C7: on the singular input `W7`, `solve` raises the
generic `LinAlgError` (`PyError.linAlgError` models
`numpy.linalg.LinAlgError`, numpy's generic linear-algebra failure), not a
distinct structural-instability error — no such error value exists in the
code. -/
theorem C7_counterexample : solve (fun x => x) W7 = .error PyError.linAlgError := by
  unfold solve
  rw [W7_partition]
  have hd : (!![1, 0; 0, 0] : Matrix (Fin 2) (Fin 2) ℚ).det = 0 := by
    rw [Matrix.det_fin_two_of]; norm_num
  simp [Except.bind, hd]
  exact hd

/-- Witness for the amended C7 at `W7`. -/
theorem C7_witness :
    partition (fun x => x) W7
        = .ok (![0, 0], ![0, 0], !![1, 0; 0, 0], !![-1, 0; 0, 0],
            !![-1, 0; 0, 0], !![1, 0; 0, 0]) ∧
      solve (fun x => x) W7 = .error .linAlgError :=
  ⟨W7_partition,
    C7_amended_generic_linalg_error (fun x => x) W7 ![0, 0] ![0, 0] !![1, 0; 0, 0]
      !![-1, 0; 0, 0] !![-1, 0; 0, 0] !![1, 0; 0, 0] W7_partition
      (by rw [Matrix.det_fin_two_of]; norm_num)⟩

theorem option_get_congr {x y : Option R} (hx : x.isSome) (hy : y.isSome)
    (hxy : x = y) : x.get hx = y.get hy := by
  cases hxy
  rfl

/-- C10: two inputs identical except in the `u` entries at known-force
DOFs produce identical `solve` results — the gathered `du = u[U_idx]`
(line 151) is discarded by the partitioner and never used. -/
theorem C10_solve_ignores_u_at_known_P [DecidableEq R] (sqrt : R → R)
    (coords : Fin nN → R × R) (ien : Fin nE → Fin nN × Fin nN)
    (props : Fin nE → R × R) (u₁ u₂ P : Fin (2 * nN) → Option R)
    (hagree : ∀ i, P i = none → u₁ i = u₂ i) :
    solve sqrt ⟨coords, ien, props, u₁, P⟩
      = solve sqrt ⟨coords, ien, props, u₂, P⟩ := by
  set M₁ : MSA_truss nN nE R := ⟨coords, ien, props, u₁, P⟩ with hM₁
  set M₂ : MSA_truss nN nE R := ⟨coords, ien, props, u₂, P⟩ with hM₂
  have hmem : ∀ a : Fin (Sidx M₁).length, P ((Sidx M₁).get a) = none := by
    intro a
    have h : (Sidx M₁).get a ∈ Sidx M₁ := List.get_mem (Sidx M₁) a.1 a.2
    have h2 := (List.mem_filter.mp h).2
    rcases hP : P ((Sidx M₁).get a) with _ | v
    · rfl
    · have h3 : (!(P ((Sidx M₁).get a)).isSome) = true := h2
      rw [hP] at h3
      simp at h3
  have hu : ∀ a : Fin (Sidx M₁).length,
      u₁ ((Sidx M₁).get a) = u₂ ((Sidx M₁).get a) :=
    fun a => hagree _ (hmem a)
  have hpart : partition sqrt M₁ = partition sqrt M₂ := by
    by_cases hc : ∀ a : Fin (Sidx M₁).length,
        ((M₁.u ((Sidx M₁).get a)).isSome : Bool) = true
    · have hc₂ : ∀ a : Fin (Sidx M₂).length,
          ((M₂.u ((Sidx M₂).get a)).isSome : Bool) = true := by
        intro a
        have := hc a
        rw [show M₁.u ((Sidx M₁).get a) = M₂.u ((Sidx M₂).get a) from hu a] at this
        exact this
      unfold partition
      rw [dif_pos hc, dif_pos hc₂]
      refine congrArg Except.ok ?_
      refine Prod.ext rfl (Prod.ext ?_ rfl)
      funext a
      exact option_get_congr (hc a) (hc₂ a) (hu a)
    · have hc₂ : ¬∀ a : Fin (Sidx M₂).length,
          ((M₂.u ((Sidx M₂).get a)).isSome : Bool) = true := by
        intro h
        exact hc fun a => by
          rw [show M₁.u ((Sidx M₁).get a) = M₂.u ((Sidx M₂).get a) from hu a]
          exact h a
      unfold partition
      rw [dif_neg hc, dif_neg hc₂]
  unfold solve
  rw [hpart]
  rfl

/-- Witness for C10: `W1` and `W10b` differ only in `u` at the known-force
DOF 0 and solve to the same result. -/
theorem C10_witness :
    (∀ i, W1.P i = none → W1.u i = W10b.u i) ∧
      solve (fun x => x) W1 = solve (fun x => x) W10b :=
  ⟨by decide,
    C10_solve_ignores_u_at_known_P (fun x => x) ![(0, 0), (1, 0)] ![(0, 1)]
      ![(1, 1)] ![none, some 0, some 0, some 0] ![some 5, some 0, some 0, some 0]
      ![some 1, none, none, none] (by decide)⟩

theorem optMul_none_right (x : Option R) : optMul x none = none := by
  cases x <;> rfl

theorem optMul_none_left (x : Option R) : optMul none x = none := by
  cases x <;> rfl

theorem optAdd_none_right (x : Option R) : optAdd x none = none := by
  cases x <;> rfl

/-- In the refined float model, a zero-length element (coinciding
endpoints) makes every entry of the element stiffness matrix non-finite
(NaN), and the computation returns this matrix without raising any
error. -/
theorem Ke_trussF_degenerate [DecidableEq R] (sqrt : R → R) (M : MSA_truss nN nE R)
    (e : Fin nE) (hco : M.coords (M.ien e).1 = M.coords (M.ien e).2)
    (h0 : sqrt 0 = 0) : Ke_trussF sqrt M e = fun _ _ => none := by
  have hnx : elemNx M e = 0 := by rw [elemNx, hco, sub_self]
  have hny : elemNy M e = 0 := by rw [elemNy, hco, sub_self]
  have h2 : (List.finRange 2 : List (Fin 2)) = [0, 1] := rfl
  funext i j
  simp [Ke_trussF, hnx, hny, fmul, optDot, h2, optAdd, optMul, optDiv, h0,
    optMul_none_right, optMul_none_left, optAdd_none_right]

/-- Counterexample to C6: the element of `WDeg` has both endpoints at node
0 (length 0); `Ke_trussF` completes normally and returns the all-NaN 4×4
matrix — no degenerate-element error is raised and the NaN entries are
handed to the caller. -/
theorem C6_counterexample :
    Ke_trussF (fun x => x) WDeg 0 = fun _ _ => (none : Option ℚ) :=
  Ke_trussF_degenerate (fun x => x) WDeg 0 rfl rfl

/-- Amended C6: a zero-length element raises no error at all; the division
by zero produces non-finite values (NaN/Inf) and the element stiffness
matrix is returned with every entry non-finite, silently propagating into
later stages. -/
theorem C6_amended_nan_propagation [DecidableEq R] (sqrt : R → R)
    (M : MSA_truss nN nE R) (e : Fin nE)
    (hco : M.coords (M.ien e).1 = M.coords (M.ien e).2) (h0 : sqrt 0 = 0) :
    Ke_trussF sqrt M e = fun _ _ => none :=
  Ke_trussF_degenerate sqrt M e hco h0

/-- Witness for the amended C6 at the concrete degenerate input `WDeg`. -/
theorem C6_witness :
    WDeg.coords (WDeg.ien 0).1 = WDeg.coords (WDeg.ien 0).2 ∧
      Ke_trussF (fun x => x) WDeg 0 = fun _ _ => (none : Option ℚ) :=
  ⟨rfl, C6_amended_nan_propagation (fun x => x) WDeg 0 rfl rfl⟩

/-- Counterexample to C9: node index 64 is within the claimed safe range
of "~127 nodes", yet its stored DOF pair wraps to `(-128, -127)` instead
of `(128, 129)`. -/
theorem C9_counterexample :
    ind_stored 64 = (-128, -127) ∧ ind_stored 64 ≠ (2 * 64, 2 * 64 + 1) := by
  constructor <;> decide

/-- Amended C9: the int8 index storage maps node `i` to DOF indices
`(2i, 2i+1)` correctly only for `i ≤ 63`; the stored pair wraps modulo
`2^8` from node 64 on (`ind_stored 64 = (-128, -127)`).  The node indices
in `ien` survive up to 127. -/
theorem C9_amended_int8_bounds :
    (∀ i : ℕ, i ≤ 63 → ind_stored i = ((2 * i : ℤ), (2 * i + 1 : ℤ))) ∧
      (∀ j : ℕ, j ≤ 127 → ien_stored j = (j : ℤ)) ∧
      ind_stored 64 = (-128, -127) := by
  refine ⟨fun i hi => ?_, fun j hj => ?_, by decide⟩
  · unfold ind_stored toInt8
    refine Prod.ext ?_ ?_ <;> simp only [] <;> omega
  · unfold ien_stored toInt8
    omega

/-- Witness for the amended C9 at the last safe node index 63. -/
theorem C9_witness : ind_stored 63 = ((2 * (63 : ℕ) : ℤ), (2 * (63 : ℕ) + 1 : ℤ)) :=
  C9_amended_int8_bounds.1 63 (by norm_num)

theorem sqrt2_mul_self : Real.sqrt 2 * Real.sqrt 2 = 2 :=
  Real.mul_self_sqrt (by norm_num)

theorem sqrt2_ne_zero : Real.sqrt 2 ≠ 0 := by positivity

theorem nx0_mk3 (u P : Fin 6 → Option ℝ) : elemNx (mk3 u P) 0 = 1 := by
  norm_num [elemNx, mk3]

theorem ny0_mk3 (u P : Fin 6 → Option ℝ) : elemNy (mk3 u P) 0 = 0 := by
  norm_num [elemNy, mk3]

theorem nx1_mk3 (u P : Fin 6 → Option ℝ) : elemNx (mk3 u P) 1 = 1 := by
  norm_num [elemNx, mk3]

theorem ny1_mk3 (u P : Fin 6 → Option ℝ) : elemNy (mk3 u P) 1 = 1 := by
  norm_num [elemNy, mk3]

theorem L0_mk3 (u P : Fin 6 → Option ℝ) : elemL Real.sqrt (mk3 u P) 0 = 1 := by
  simp only [elemL, nx0_mk3, ny0_mk3]
  norm_num [Real.sqrt_one]

theorem L1_mk3 (u P : Fin 6 → Option ℝ) :
    elemL Real.sqrt (mk3 u P) 1 = Real.sqrt 2 := by
  simp only [elemL, nx1_mk3, ny1_mk3]
  norm_num

theorem dir0_mk3 (u P : Fin 6 → Option ℝ) :
    elemDir Real.sqrt (mk3 u P) 0 = ![1, 0, -1, 0] := by
  funext r
  simp only [elemDir, nx0_mk3, ny0_mk3, L0_mk3]
  fin_cases r <;> norm_num

theorem dir1_mk3 (u P : Fin 6 → Option ℝ) :
    elemDir Real.sqrt (mk3 u P) 1
      = fun r => (Real.sqrt 2)⁻¹ * (![1, 1, -1, -1] r) := by
  funext r
  simp only [elemDir, nx1_mk3, ny1_mk3, L1_mk3]
  fin_cases r <;> field_simp

theorem Ke0_mk3 (u P : Fin 6 → Option ℝ) (r c : Fin 4) :
    Ke_truss Real.sqrt (mk3 u P) 0 r c = ![1, 0, -1, 0] r * ![1, 0, -1, 0] c := by
  rw [Ke_truss_apply, dir0_mk3, L0_mk3]
  norm_num [mk3]

theorem Ke1_mk3 (u P : Fin 6 → Option ℝ) (r c : Fin 4) :
    Ke_truss Real.sqrt (mk3 u P) 1 r c
      = Real.sqrt 2 / 4 * (![1, 1, -1, -1] r * ![1, 1, -1, -1] c) := by
  rw [Ke_truss_apply, dir1_mk3, L1_mk3]
  have key : ((Real.sqrt 2)⁻¹ * ((Real.sqrt 2)⁻¹ * (Real.sqrt 2)⁻¹) : ℝ)
      = Real.sqrt 2 / 4 := by
    rw [show ((Real.sqrt 2)⁻¹ * ((Real.sqrt 2)⁻¹ * (Real.sqrt 2)⁻¹) : ℝ)
        = (Real.sqrt 2 * (Real.sqrt 2 * Real.sqrt 2))⁻¹ by
      rw [mul_inv, mul_inv]]
    rw [sqrt2_mul_self]
    refine inv_eq_of_mul_eq_one_right ?_
    linear_combination (1 / 2 : ℝ) * sqrt2_mul_self
  have hprops : ((mk3 u P).props 1).1 * ((mk3 u P).props 1).2 = 1 := by
    norm_num [mk3]
  rw [show ((mk3 u P).props 1).1 * ((mk3 u P).props 1).2 / Real.sqrt 2
        * ((Real.sqrt 2)⁻¹ * ![1, 1, -1, -1] r * ((Real.sqrt 2)⁻¹ * ![1, 1, -1, -1] c))
      = (((mk3 u P).props 1).1 * ((mk3 u P).props 1).2)
        * ((Real.sqrt 2)⁻¹ * ((Real.sqrt 2)⁻¹ * (Real.sqrt 2)⁻¹))
        * (![1, 1, -1, -1] r * ![1, 1, -1, -1] c) by
      rw [div_eq_mul_inv]; ring]
  rw [hprops, key]
  ring

theorem dof00_mk3 (u P : Fin 6 → Option ℝ) : dof (mk3 u P) 0 0 = ⟨0, by omega⟩ :=
  npIndex_eq (by norm_num) (by norm_num [iedStored, ind_stored, toInt8, mk3])

theorem dof01_mk3 (u P : Fin 6 → Option ℝ) : dof (mk3 u P) 0 1 = ⟨1, by omega⟩ :=
  npIndex_eq (by norm_num) (by norm_num [iedStored, ind_stored, toInt8, mk3])

theorem dof02_mk3 (u P : Fin 6 → Option ℝ) : dof (mk3 u P) 0 2 = ⟨2, by omega⟩ :=
  npIndex_eq (by norm_num) (by norm_num [iedStored, ind_stored, toInt8, mk3])

theorem dof03_mk3 (u P : Fin 6 → Option ℝ) : dof (mk3 u P) 0 3 = ⟨3, by omega⟩ :=
  npIndex_eq (by norm_num) (by norm_num [iedStored, ind_stored, toInt8, mk3])

theorem dof10_mk3 (u P : Fin 6 → Option ℝ) : dof (mk3 u P) 1 0 = ⟨0, by omega⟩ :=
  npIndex_eq (by norm_num) (by norm_num [iedStored, ind_stored, toInt8, mk3])

theorem dof11_mk3 (u P : Fin 6 → Option ℝ) : dof (mk3 u P) 1 1 = ⟨1, by omega⟩ :=
  npIndex_eq (by norm_num) (by norm_num [iedStored, ind_stored, toInt8, mk3])

theorem dof12_mk3 (u P : Fin 6 → Option ℝ) : dof (mk3 u P) 1 2 = ⟨4, by omega⟩ :=
  npIndex_eq (by norm_num) (by norm_num [iedStored, ind_stored, toInt8, mk3])

theorem dof13_mk3 (u P : Fin 6 → Option ℝ) : dof (mk3 u P) 1 3 = ⟨5, by omega⟩ :=
  npIndex_eq (by norm_num) (by norm_num [iedStored, ind_stored, toInt8, mk3])

set_option maxHeartbeats 1600000 in
theorem KG_mk3 (u P : Fin 6 → Option ℝ) :
    KG Real.sqrt (mk3 u P)
      = !![1 + Real.sqrt 2 / 4, Real.sqrt 2 / 4, -1, 0, -(Real.sqrt 2 / 4), -(Real.sqrt 2 / 4);
           Real.sqrt 2 / 4, Real.sqrt 2 / 4, 0, 0, -(Real.sqrt 2 / 4), -(Real.sqrt 2 / 4);
           -1, 0, 1, 0, 0, 0;
           0, 0, 0, 0, 0, 0;
           -(Real.sqrt 2 / 4), -(Real.sqrt 2 / 4), 0, 0, Real.sqrt 2 / 4, Real.sqrt 2 / 4;
           -(Real.sqrt 2 / 4), -(Real.sqrt 2 / 4), 0, 0, Real.sqrt 2 / 4, Real.sqrt 2 / 4] := by
  funext i j
  rw [KG_apply]
  fin_cases i <;> fin_cases j <;>
    (simp only [Fin.sum_univ_two, Fin.sum_univ_four, Ke0_mk3, Ke1_mk3,
       dof00_mk3, dof01_mk3, dof02_mk3, dof03_mk3, dof10_mk3, dof11_mk3,
       dof12_mk3, dof13_mk3, Fin.mk.injEq]
     norm_num)

theorem sqrt2_lb : (1.414213 : ℝ) < Real.sqrt 2 :=
  (Real.lt_sqrt (by norm_num)).mpr (by norm_num)

theorem sqrt2_ub : Real.sqrt 2 < 1.414214 :=
  (Real.sqrt_lt' (by norm_num)).mpr (by norm_num)

theorem testT_Kuu_det_ne :
    (!![1 + Real.sqrt 2 / 4, Real.sqrt 2 / 4;
       Real.sqrt 2 / 4, Real.sqrt 2 / 4] : Matrix (Fin 2) (Fin 2) ℝ).det ≠ 0 := by
  rw [Matrix.det_fin_two_of]
  have h : ((1 + Real.sqrt 2 / 4) * (Real.sqrt 2 / 4)
      - Real.sqrt 2 / 4 * (Real.sqrt 2 / 4) : ℝ) = Real.sqrt 2 / 4 := by ring
  rw [h]
  have : (0:ℝ) < Real.sqrt 2 := Real.sqrt_pos.mpr (by norm_num)
  positivity

/-- Amended C4: on the input actually used by the repository's regression
test — load `(0, -1)` applied at node 0, nodes 1 and 2 fully fixed
(`P = [0, -1, unk, unk, unk, unk]`, `u = [unk, unk, 0, 0, 0, 0]`) — `solve`
returns unknown displacements `(1, -1 - 2·√2) ≈ (1.0, -3.828427)` and
unknown reactions `(-1, 0, 1, 1) ≈ (-1.0, 0.0, 0.9999999, 0.9999999)`, in
ascending global-DOF order within each partition. -/
theorem C4_amended_test_scenario :
    ∃ du Rs, solve Real.sqrt testT = .ok (du, Rs) ∧
      du = ![1, -1 - 2 * Real.sqrt 2] ∧
      Rs = ![-1, 0, 1, 1] ∧
      |(-1 - 2 * Real.sqrt 2 : ℝ) - (-3.828427)| < 0.000001 ∧
      |(1 : ℝ) - 0.9999999| < 0.000001 := by
  have hKg : KG Real.sqrt testT
      = !![1 + Real.sqrt 2 / 4, Real.sqrt 2 / 4, -1, 0, -(Real.sqrt 2 / 4), -(Real.sqrt 2 / 4);
           Real.sqrt 2 / 4, Real.sqrt 2 / 4, 0, 0, -(Real.sqrt 2 / 4), -(Real.sqrt 2 / 4);
           -1, 0, 1, 0, 0, 0;
           0, 0, 0, 0, 0, 0;
           -(Real.sqrt 2 / 4), -(Real.sqrt 2 / 4), 0, 0, Real.sqrt 2 / 4, Real.sqrt 2 / 4;
           -(Real.sqrt 2 / 4), -(Real.sqrt 2 / 4), 0, 0, Real.sqrt 2 / 4, Real.sqrt 2 / 4] :=
    KG_mk3 _ _
  have hS : ∀ a : Fin (Sidx testT).length,
      ((testT.u ((Sidx testT).get a)).isSome : Bool) = true := by decide
  have hp : partition Real.sqrt testT = Except.ok
      (fun a => (testT.P ((Uidx testT).get a)).getD 0,
       fun a => (testT.u ((Sidx testT).get a)).get (hS a),
       Matrix.of fun a b => KG Real.sqrt testT ((Uidx testT).get a) ((Uidx testT).get b),
       Matrix.of fun a b => KG Real.sqrt testT ((Uidx testT).get a) ((Sidx testT).get b),
       Matrix.of fun a b => KG Real.sqrt testT ((Sidx testT).get a) ((Uidx testT).get b),
       Matrix.of fun a b => KG Real.sqrt testT ((Sidx testT).get a) ((Sidx testT).get b)) := by
    unfold partition
    rw [dif_pos hS]
  have hPu : (fun a => (testT.P ((Uidx testT).get a)).getD 0) = ![(0:ℝ), -1] := by
    funext a
    fin_cases a <;> rfl
  have hds : (fun a => (testT.u ((Sidx testT).get a)).get (hS a))
      = (0 : Fin (Sidx testT).length → ℝ) := by
    funext a
    fin_cases a <;> rfl
  have hKuu : (Matrix.of fun a b =>
        KG Real.sqrt testT ((Uidx testT).get a) ((Uidx testT).get b))
      = !![1 + Real.sqrt 2 / 4, Real.sqrt 2 / 4;
           Real.sqrt 2 / 4, Real.sqrt 2 / 4] := by
    funext a b
    fin_cases a <;> fin_cases b <;> (simp only [Matrix.of_apply, hKg]; rfl)
  have hKsu : (Matrix.of fun a b =>
        KG Real.sqrt testT ((Sidx testT).get a) ((Uidx testT).get b))
      = !![-1, 0; 0, 0;
           -(Real.sqrt 2 / 4), -(Real.sqrt 2 / 4);
           -(Real.sqrt 2 / 4), -(Real.sqrt 2 / 4)] := by
    funext a b
    fin_cases a <;> fin_cases b <;> (simp only [Matrix.of_apply, hKg]; rfl)
  have hdet := testT_Kuu_det_ne
  have hKmul : (!![1 + Real.sqrt 2 / 4, Real.sqrt 2 / 4;
       Real.sqrt 2 / 4, Real.sqrt 2 / 4] : Matrix (Fin 2) (Fin 2) ℝ).mulVec
        ![1, -1 - 2 * Real.sqrt 2] = ![(0:ℝ), -1] := by
    funext t
    fin_cases t <;>
      (simp [Matrix.mulVec, Matrix.dotProduct, Fin.sum_univ_two]
       linear_combination (-1 / 2 : ℝ) * sqrt2_mul_self)
  have hInvK : linalg_inv (!![1 + Real.sqrt 2 / 4, Real.sqrt 2 / 4;
        Real.sqrt 2 / 4, Real.sqrt 2 / 4] : Matrix (Fin 2) (Fin 2) ℝ)
      * !![1 + Real.sqrt 2 / 4, Real.sqrt 2 / 4;
           Real.sqrt 2 / 4, Real.sqrt 2 / 4] = 1 := by
    unfold linalg_inv
    rw [Matrix.smul_mul, Matrix.adjugate_mul, smul_smul,
      inv_mul_cancel₀ hdet, one_smul]
  have hdu : (linalg_inv (!![1 + Real.sqrt 2 / 4, Real.sqrt 2 / 4;
        Real.sqrt 2 / 4, Real.sqrt 2 / 4] : Matrix (Fin 2) (Fin 2) ℝ)).mulVec
        ![(0:ℝ), -1] = ![1, -1 - 2 * Real.sqrt 2] := by
    rw [← hKmul, Matrix.mulVec_mulVec, hInvK, Matrix.one_mulVec]
  have hRs : (!![-1, 0; 0, 0;
           -(Real.sqrt 2 / 4), -(Real.sqrt 2 / 4);
           -(Real.sqrt 2 / 4), -(Real.sqrt 2 / 4)] :
        Matrix (Fin 4) (Fin 2) ℝ).mulVec ![1, -1 - 2 * Real.sqrt 2]
      = ![-1, 0, 1, 1] := by
    funext t
    fin_cases t <;>
      norm_num [Matrix.mulVec, Matrix.dotProduct, Fin.sum_univ_two] <;>
      linear_combination (1 / 2 : ℝ) * sqrt2_mul_self
  refine ⟨![1, -1 - 2 * Real.sqrt 2], ![-1, 0, 1, 1], ?_, rfl, rfl, ?_, ?_⟩
  · unfold solve
    rw [hp]
    simp only [Except.bind]
    rw [hPu, hds, hKuu, hKsu]
    refine (if_neg hdet).trans ?_
    rw [Matrix.mulVec_zero, sub_zero, Matrix.mulVec_zero, add_zero, hdu, hRs]
  · have h1 := sqrt2_lb
    have h2 := sqrt2_ub
    rw [abs_lt]
    constructor <;> nlinarith
  · rw [abs_of_nonneg (by norm_num)]
    norm_num

/-- Counterexample to C4: on the input the claim actually describes —
node 0 and node 1 fixed, node 2 loaded with `(0, -1)` — the reduced block
`Kuu` (the 2×2 block of node 2, fed only by the diagonal element) is
exactly singular, and `solve` raises `LinAlgError` instead of returning
the claimed displacement/reaction values. -/
theorem C4_counterexample : solve Real.sqrt claimT = .error PyError.linAlgError := by
  have hKg : KG Real.sqrt claimT
      = !![1 + Real.sqrt 2 / 4, Real.sqrt 2 / 4, -1, 0, -(Real.sqrt 2 / 4), -(Real.sqrt 2 / 4);
           Real.sqrt 2 / 4, Real.sqrt 2 / 4, 0, 0, -(Real.sqrt 2 / 4), -(Real.sqrt 2 / 4);
           -1, 0, 1, 0, 0, 0;
           0, 0, 0, 0, 0, 0;
           -(Real.sqrt 2 / 4), -(Real.sqrt 2 / 4), 0, 0, Real.sqrt 2 / 4, Real.sqrt 2 / 4;
           -(Real.sqrt 2 / 4), -(Real.sqrt 2 / 4), 0, 0, Real.sqrt 2 / 4, Real.sqrt 2 / 4] :=
    KG_mk3 _ _
  have hS : ∀ a : Fin (Sidx claimT).length,
      ((claimT.u ((Sidx claimT).get a)).isSome : Bool) = true := by decide
  have hp : partition Real.sqrt claimT = Except.ok
      (fun a => (claimT.P ((Uidx claimT).get a)).getD 0,
       fun a => (claimT.u ((Sidx claimT).get a)).get (hS a),
       Matrix.of fun a b => KG Real.sqrt claimT ((Uidx claimT).get a) ((Uidx claimT).get b),
       Matrix.of fun a b => KG Real.sqrt claimT ((Uidx claimT).get a) ((Sidx claimT).get b),
       Matrix.of fun a b => KG Real.sqrt claimT ((Sidx claimT).get a) ((Uidx claimT).get b),
       Matrix.of fun a b => KG Real.sqrt claimT ((Sidx claimT).get a) ((Sidx claimT).get b)) := by
    unfold partition
    rw [dif_pos hS]
  have hKuu : (Matrix.of fun a b =>
        KG Real.sqrt claimT ((Uidx claimT).get a) ((Uidx claimT).get b))
      = !![Real.sqrt 2 / 4, Real.sqrt 2 / 4;
           Real.sqrt 2 / 4, Real.sqrt 2 / 4] := by
    funext a b
    fin_cases a <;> fin_cases b <;> (simp only [Matrix.of_apply, hKg]; rfl)
  have hdet0 : (!![Real.sqrt 2 / 4, Real.sqrt 2 / 4;
       Real.sqrt 2 / 4, Real.sqrt 2 / 4] : Matrix (Fin 2) (Fin 2) ℝ).det = 0 := by
    rw [Matrix.det_fin_two_of]
    ring
  unfold solve
  rw [hp]
  simp only [Except.bind]
  rw [hKuu]
  exact if_pos hdet0

end MSA
